import Mathlib

/-!
Verification of the Data-Connectors base connector module
(`src/connectors/base_connectors.py`).

We shallowly embed the Python code: JSON-like Python values become an
inductive type `PyVal`, dictionaries become association lists, generators
become fuel-indexed functions returning the list of yielded pages together
with the trace of issued requests, and the wall clock / `time.sleep` of the
rate limiter becomes an explicit environment trace constrained by validity
conditions.
-/

namespace DataConnectors

/-- A Python value as it appears in connector responses: JSON-ish data.
`none` models Python's `None`. -/
inductive PyVal where
  | pynone : PyVal
  | pybool : Bool → PyVal
  | pyint  : Int → PyVal
  | pystr  : String → PyVal
  | pylist : List PyVal → PyVal
  | pydict : List (String × PyVal) → PyVal

/-- A Python dict (e.g. the `params` kwarg) as an association list;
Python dicts have unique keys, lookups take the first matching entry. -/
abbrev PyDict := List (String × PyVal)

/-- `d[k]` / `d.get(k)`: first value bound to `k`, or Python `None` when
the key is absent (as `dict.get` returns). -/
def dictGet (d : List (String × PyVal)) (k : String) : PyVal :=
  match d.find? (fun p => p.1 = k) with
  | some p => p.2
  | none => PyVal.pynone

/-- `k in d` for a Python dict. -/
def dictContains (d : List (String × PyVal)) (k : String) : Bool :=
  d.any (fun p => p.1 = k)

/-- `d[k] = v`: overwrite the binding of `k` if present, else append it
(Python dicts keep insertion order; a re-assigned key keeps its slot). -/
def dictSet (d : List (String × PyVal)) (k : String) (v : PyVal) : List (String × PyVal) :=
  if dictContains d k then
    d.map (fun p => if p.1 = k then (k, v) else p)
  else
    d ++ [(k, v)]

/-- `d.update({k₁: v₁, k₂: v₂, ...})` applied left to right. -/
def dictUpdate (d : List (String × PyVal)) (kvs : List (String × PyVal)) :
    List (String × PyVal) :=
  kvs.foldl (fun acc kv => dictSet acc kv.1 kv.2) d

/-- Python truthiness of a value (`if not records:` and `if cursor:` use
this). Total: truthiness never raises. -/
def pyTruthy : PyVal → Bool
  | PyVal.pynone => false
  | PyVal.pybool b => b
  | PyVal.pyint i => i ≠ 0
  | PyVal.pystr s => s ≠ ""
  | PyVal.pylist [] => false
  | PyVal.pylist (_ :: _) => true
  | PyVal.pydict [] => false
  | PyVal.pydict (_ :: _) => true

/-- Python `len`: defined on sequences/mappings/strings, raises `TypeError`
(modelled as `none`) on `None`, booleans and numbers. -/
def pyLen : PyVal → Option Nat
  | PyVal.pystr s => some s.length
  | PyVal.pylist l => some l.length
  | PyVal.pydict d => some d.length
  | _ => none

/-- `BaseConnector._extract_records_from_response` (base_connectors.py
lines 258-278): a list is returned unchanged; a dict is probed for the
keys `data`, `results`, `items` in that order; anything else is wrapped
into a one-element list. -/
def extract_records_from_response (data : PyVal) : PyVal :=
  match data with
  | PyVal.pylist l => PyVal.pylist l
  | PyVal.pydict d =>
      if dictContains d "data" then dictGet d "data"
      else if dictContains d "results" then dictGet d "results"
      else if dictContains d "items" then dictGet d "items"
      else PyVal.pylist [PyVal.pydict d]
  | v => PyVal.pylist [v]

/-- Python's `path.split('.')` on the underlying characters: cut at every
`'.'`; the empty string splits to `[""]`, adjacent dots give empty
segments. `acc` holds the current segment reversed. -/
def splitDotAux : List Char → List Char → List String
  | [], acc => [String.mk acc.reverse]
  | c :: cs, acc =>
      if c = '.' then String.mk acc.reverse :: splitDotAux cs []
      else splitDotAux cs (c :: acc)

/-- `path.split('.')`. -/
def splitDot (s : String) : List String :=
  splitDotAux s.data []

/-- The `for key in keys` loop of `BaseConnector._get_nested_value`:
walk the mappings key by key; a non-dict intermediate value short-circuits
to `None`, and `dict.get` yields `None` on a missing key. -/
def walkKeys : List String → PyVal → PyVal
  | [], v => v
  | k :: ks, PyVal.pydict d => walkKeys ks (dictGet d k)
  | _ :: _, _ => PyVal.pynone

/-- `BaseConnector._get_nested_value` (lines 280-293): split the dotted
path on `.` and walk the nested dicts. -/
def get_nested_value (data : PyVal) (path : String) : PyVal :=
  walkKeys (splitDot path) data

/-- `endpoint.lstrip('/')`: drop every leading `/` character. -/
def lstripSlash (s : String) : String :=
  String.mk (s.data.dropWhile (fun c => c = '/'))

/-- The URL built by `BaseConnector.get` / `BaseConnector.post`
(lines 144-154): `f"{base_url}/{endpoint.lstrip('/')}"`. -/
def buildUrl (base_url endpoint : String) : String :=
  base_url ++ "/" ++ lstripSlash endpoint

/-! ## Paginators

A generator run is embedded as a fuel-indexed function returning the
yielded pages, the trace of issued fetches (the params dict sent with
each one), and the final contents of the caller's `params` dict (the
code mutates the caller's dict in place; we thread it explicitly). A
fetch is `PyDict → Except Unit PyVal`: `Except.error` models any
exception escaping `self.get` (transport error, non-2xx after retries,
JSON decode failure). -/

structure PaginateResult where
  pages : List PyVal
  requests : List PyDict
  finalParams : PyDict

/-- The guard `if max_pages and page >= max_pages:` — Python truthiness
of `max_pages` (None and 0 are falsy) and then the comparison. -/
def maxPagesHit (maxPages : Option Int) (page : Int) : Bool :=
  match maxPages with
  | none => false
  | some m => m ≠ 0 && page ≥ m

/-- Loop body of `BaseConnector.paginate_offset` (lines 156-203), one
fuel unit per iteration of `while True`. Per iteration: break on the
`max_pages` guard; merge `limit`/`offset` into the params dict (the
caller's own dict, re-read from `kwargs` and mutated in place); fetch;
on any exception break (yielding nothing for this step); if the
extracted records are falsy break; yield the page; if `len(records)`
raises (non-sequence records) the exception is caught and breaks — the
page was already yielded; if the page is short break; else advance
`offset` and `page`. -/
def paginate_offset_loop (fetch : PyDict → Except Unit PyVal) (limit : Int)
    (maxPages : Option Int) : Nat → Int → Int → PyDict → PaginateResult
  | 0, _, _, params => ⟨[], [], params⟩
  | fuel + 1, offset, page, params =>
    if maxPagesHit maxPages page then ⟨[], [], params⟩
    else
      let params1 := dictUpdate params
        [("limit", PyVal.pyint limit), ("offset", PyVal.pyint offset)]
      match fetch params1 with
      | Except.error _ => ⟨[], [params1], params1⟩
      | Except.ok data =>
        let records := extract_records_from_response data
        if pyTruthy records = false then ⟨[], [params1], params1⟩
        else
          match pyLen records with
          | none => ⟨[records], [params1], params1⟩
          | some n =>
            if (n : Int) < limit then ⟨[records], [params1], params1⟩
            else
              let rest := paginate_offset_loop fetch limit maxPages fuel
                (offset + limit) (page + 1) params1
              ⟨records :: rest.pages, params1 :: rest.requests, rest.finalParams⟩

/-- `BaseConnector.paginate_offset`: the loop started at
`offset = 0, page = 0`. -/
def paginate_offset (fetch : PyDict → Except Unit PyVal) (limit : Int)
    (maxPages : Option Int) (fuel : Nat) (params : PyDict) : PaginateResult :=
  paginate_offset_loop fetch limit maxPages fuel 0 0 params

/-- Loop body of `BaseConnector.paginate_cursor` (lines 205-256). Per
iteration: break on the `max_pages` guard; if the held cursor is truthy
inject it under `cursor_param` into the caller's params dict; fetch; on
any exception break; if the extracted records are falsy break; yield the
page; look up the next cursor at `cursor_path`; if falsy break, else
continue with it. There is no short-page check in this variant. -/
def paginate_cursor_loop (fetch : PyDict → Except Unit PyVal)
    (cursor_param cursor_path : String) (maxPages : Option Int) :
    Nat → PyVal → Int → PyDict → PaginateResult
  | 0, _, _, params => ⟨[], [], params⟩
  | fuel + 1, cursor, page, params =>
    if maxPagesHit maxPages page then ⟨[], [], params⟩
    else
      let params1 := if pyTruthy cursor then dictSet params cursor_param cursor else params
      match fetch params1 with
      | Except.error _ => ⟨[], [params1], params1⟩
      | Except.ok data =>
        let records := extract_records_from_response data
        if pyTruthy records = false then ⟨[], [params1], params1⟩
        else
          let cursor1 := get_nested_value data cursor_path
          if pyTruthy cursor1 = false then ⟨[records], [params1], params1⟩
          else
            let rest := paginate_cursor_loop fetch cursor_param cursor_path maxPages fuel
              cursor1 (page + 1) params1
            ⟨records :: rest.pages, params1 :: rest.requests, rest.finalParams⟩

/-- `BaseConnector.paginate_cursor`: the loop started with
`cursor = None, page = 0`. -/
def paginate_cursor (fetch : PyDict → Except Unit PyVal)
    (cursor_param cursor_path : String) (maxPages : Option Int) (fuel : Nat)
    (params : PyDict) : PaginateResult :=
  paginate_cursor_loop fetch cursor_param cursor_path maxPages fuel PyVal.pynone 0 params

/-- Spec-side `max_pages` cutoff: "`max_pages` is set and the current
page count has reached it". -/
def specMaxPagesHit (maxPages : Option Int) (page : Int) : Bool :=
  match maxPages with
  | none => false
  | some m => decide (page ≥ m)

/-- Reference offset paginator, written from the spec's words (§4.4):
state `(offset, page)` starting at `(0, 0)`; per step, if `max_pages` is
set and the page count has reached it, DONE; issue a GET with `limit`
and `offset` merged into the caller-supplied parameters; any exception
during the fetch is DONE with no partial page; extract records; DONE if
the record sequence is empty; yield the page; DONE if it holds strictly
fewer than `limit` records; else advance `offset += limit`,
`page += 1`. Non-sequence extraction results are outside the spec's
record-sequence contract and are mapped to DONE. The guard
`specMaxPagesHit` is the spec's "`max_pages` is set and the current page
count has reached it". -/
def spec_offset_pages (fetch : PyDict → Except Unit PyVal) (limit : Int)
    (maxPages : Option Int) : Nat → Int → Int → PyDict → List PyVal
  | 0, _, _, _ => []
  | fuel + 1, offset, page, params =>
    if specMaxPagesHit maxPages page then []
    else
      let params1 := dictUpdate params
        [("limit", PyVal.pyint limit), ("offset", PyVal.pyint offset)]
      match fetch params1 with
      | Except.error _ => []
      | Except.ok data =>
        match extract_records_from_response data with
        | PyVal.pylist [] => []
        | PyVal.pylist l =>
            if (l.length : Int) < limit then [PyVal.pylist l]
            else PyVal.pylist l ::
              spec_offset_pages fetch limit maxPages fuel (offset + limit) (page + 1) params1
        | _ => []

/-- Replace every fetch exception by a successful end-of-data response
(`{"data": []}`); used to state that pagination failure is
observationally end-of-data. -/
def errToEmptyData (fetch : PyDict → Except Unit PyVal) : PyDict → Except Unit PyVal :=
  fun p =>
    match fetch p with
    | Except.error _ => Except.ok (PyVal.pydict [("data", PyVal.pylist [])])
    | Except.ok d => Except.ok d

/-! ## Rate limiter

`BaseConnector._rate_limit_check` (lines 85-106) reads the wall clock
twice (`now = time.time()` on entry, `time.time()` at the append) and may
call `time.sleep` in between. We embed one invocation as a pure state
transformer parameterised by the two clock readings `(n, n2)` of that
invocation, and constrain a whole run by the guarantees the real clock
gives: readings never decrease, and a reading taken after `sleep(s)`
is at least `s` later. -/

/-- The pruning list comprehension: keep timestamps with
`now - call_time < rate_limit_period`. -/
def pruneCalls (period now : ℚ) (calls : List ℚ) : List ℚ :=
  calls.filter (fun t => now - t < period)

/-- Python's `min` on a list of floats (only applied to non-empty lists
in the code; the `[]` case is arbitrary). -/
def listMin : List ℚ → ℚ
  | [] => 0
  | [t] => t
  | t :: ts => min t (listMin ts)

/-- The duration `_rate_limit_check` sleeps on one invocation entered at
clock `now` with timestamp list `calls`: after pruning, if the in-window
count has reached `rate_limit_calls`, sleep
`rate_limit_period - (now - oldest)` when that is positive; else 0. -/
def sleepTime (quota : Nat) (period now : ℚ) (calls : List ℚ) : ℚ :=
  if quota ≤ (pruneCalls period now calls).length then
    if 0 < period - (now - listMin (pruneCalls period now calls)) then
      period - (now - listMin (pruneCalls period now calls))
    else 0
  else 0

/-- The state update of one `_rate_limit_check` invocation: the list is
replaced by its pruned version and the fresh reading `n2` (taken after
any sleep) is appended. -/
def rate_limit_record (period n n2 : ℚ) (calls : List ℚ) : List ℚ :=
  pruneCalls period n calls ++ [n2]

/-- `validRun quota period steps calls last` holds when the clock
readings `(n, n2)` of the successive `_rate_limit_check` invocations in
`steps` are consistent with a real clock: monotone across invocations
(`last ≤ n`), and the post-sleep reading is at least `sleepTime` after
the entry reading. `calls` is the timestamp list at the start, `last`
a lower bound on the first reading. -/
def validRun (quota : Nat) (period : ℚ) : List (ℚ × ℚ) → List ℚ → ℚ → Bool
  | [], _, _ => true
  | (n, n2) :: rest, calls, last =>
      decide (last ≤ n) && decide (n + sleepTime quota period n calls ≤ n2) &&
      validRun quota period rest (rate_limit_record period n n2 calls) n2

/-- The accepted-call timestamps of a run: each invocation records its
post-sleep clock reading. -/
def acceptedCalls (steps : List (ℚ × ℚ)) : List ℚ :=
  steps.map Prod.snd

/-! ## Retry policy

`BaseConnector._make_request` (lines 108-142) is wrapped in
`@retry(stop=stop_after_attempt(3), wait=wait_exponential(multiplier=1,
min=2, max=10), reraise=True)`. The bound `3` is a literal in the
decorator; `config.max_retries` is not consulted. A request's fate is
embedded as `outcomes : Nat → Except Nat PyVal` giving the result of the
k-th attempt (attempts numbered from 1; errors carry an identifier so
that "the original error of the final attempt" is expressible). -/

/-- tenacity's `wait_exponential(multiplier, max, exp_base=2, min)`:
after the `attemptNumber`-th failed attempt the wait is
`max(max(0, min), min(multiplier * 2^(attemptNumber - 1), max))`. -/
def wait_exponential (multiplier minW maxW : ℚ) (attemptNumber : Nat) : ℚ :=
  max (max 0 minW) (min (multiplier * 2 ^ (attemptNumber - 1)) maxW)

/-- The attempt bound hard-coded in the decorator: `stop_after_attempt(3)`. -/
def stopAfterAttempt : Nat := 3

structure RequestResult where
  result : Except Nat PyVal
  attemptsMade : Nat
  delays : List ℚ

/-- tenacity's retry driver with `reraise=True`: run attempt `attempt`;
on success return; on failure, if the stop condition (attempt number ≥
bound, here tracked as `remaining = 0`) holds, re-raise the original
error of this final attempt; else wait `wait_exponential 1 2 10 attempt`
and retry. The `remaining = 0` base case is unreachable from a positive
bound. -/
def retryLoop (outcomes : Nat → Except Nat PyVal) : Nat → Nat → RequestResult
  | attempt, 0 => ⟨Except.error 0, attempt - 1, []⟩
  | attempt, remaining + 1 =>
    match outcomes attempt with
    | Except.ok v => ⟨Except.ok v, attempt, []⟩
    | Except.error e =>
      if remaining = 0 then ⟨Except.error e, attempt, []⟩
      else
        let rest := retryLoop outcomes (attempt + 1) remaining
        ⟨rest.result, rest.attemptsMade, wait_exponential 1 2 10 attempt :: rest.delays⟩

set_option linter.unusedVariables false in
/-- `BaseConnector._make_request` retry behaviour. `maxRetries` is the
value of `config.max_retries`; faithfully to the code, it is unused —
the decorator fixes the bound at `stopAfterAttempt = 3`. -/
def make_request (maxRetries : Nat) (outcomes : Nat → Except Nat PyVal) : RequestResult :=
  retryLoop outcomes 1 stopAfterAttempt

/-! ## Concrete backends used as test inputs -/

/-- A page of `k` records. -/
def sizedPage (k : Nat) : PyVal :=
  PyVal.pylist (List.replicate k (PyVal.pyint 1))

/-- Fake backend for offset pagination: serves pages of sizes
`[100, 100, 40]` at offsets `0, 100, 200` and empty pages elsewhere. -/
def backend100 (p : PyDict) : Except Unit PyVal :=
  match dictGet p "offset" with
  | PyVal.pyint (Int.ofNat 0) => Except.ok (sizedPage 100)
  | PyVal.pyint (Int.ofNat 100) => Except.ok (sizedPage 100)
  | PyVal.pyint (Int.ofNat 200) => Except.ok (sizedPage 40)
  | _ => Except.ok (PyVal.pylist [])

/-- Fake backend for cursor pagination: cursors run `c1 → c2 → absent`. -/
def cursorBackend (p : PyDict) : Except Unit PyVal :=
  match dictGet p "cursor" with
  | PyVal.pynone =>
      Except.ok (PyVal.pydict
        [("data", PyVal.pylist [PyVal.pyint 1]), ("next_cursor", PyVal.pystr "c1")])
  | PyVal.pystr "c1" =>
      Except.ok (PyVal.pydict
        [("data", PyVal.pylist [PyVal.pyint 2]), ("next_cursor", PyVal.pystr "c2")])
  | PyVal.pystr "c2" =>
      Except.ok (PyVal.pydict [("data", PyVal.pylist [PyVal.pyint 3])])
  | _ => Except.ok (PyVal.pydict [("data", PyVal.pylist [])])

/-- Backend serving a single page with no next cursor. -/
def singlePageBackend : PyDict → Except Unit PyVal :=
  fun _ => Except.ok (PyVal.pydict [("data", PyVal.pylist [PyVal.pyint 1])])

/-! ## Rate limiter invariant -/

/-- Invariant carried through a rate-limiter run. `A` is the list of all
accepted-call timestamps so far (in order), `calls` the limiter's stored
list, `last` the latest clock reading. -/
structure RLInv (quota : Nat) (period : ℚ) (A calls : List ℚ) (last : ℚ) : Prop where
  le_last : ∀ t ∈ A, t ≤ last
  prune_eq : ∀ n, last ≤ n → pruneCalls period n calls = pruneCalls period n A
  tail_count : A.countP (fun t => decide (last - t < period)) ≤ quota
  window : ∀ x : ℚ, A.countP (fun t => decide (x ≤ t) && decide (t < x + period)) ≤ quota

/-! ## Helper lemmas -/

theorem dropWhile_head_not (p : Char → Bool) :
    ∀ (l : List Char) (c : Char) (rest : List Char),
      l.dropWhile p = c :: rest → p c = false := by
  intro l
  induction l with
  | nil => intro c rest h; simp [List.dropWhile] at h
  | cons a as ih =>
    intro c rest h
    by_cases ha : p a
    · rw [List.dropWhile_cons_of_pos ha] at h
      exact ih c rest h
    · rw [List.dropWhile_cons_of_neg ha] at h
      cases h
      exact Bool.of_not_eq_true ha

theorem dictGet_cons (p : String × PyVal) (t : PyDict) (k : String) :
    dictGet (p :: t) k = if p.1 = k then p.2 else dictGet t k := by
  by_cases h : p.1 = k <;> simp [dictGet, List.find?_cons, h]

theorem dictGet_map_set_ne (d : PyDict) (k k' : String) (v : PyVal) (h : k' ≠ k) :
    dictGet (d.map (fun p => if p.1 = k then (k, v) else p)) k' = dictGet d k' := by
  induction d with
  | nil => rfl
  | cons hd t ih =>
    by_cases ha : hd.1 = k
    · have hne : hd.1 ≠ k' := by rw [ha]; exact Ne.symm h
      simp [dictGet_cons, ha, Ne.symm h, hne, ih]
    · by_cases hb : hd.1 = k' <;> simp [dictGet_cons, ha, hb, h, ih]

theorem dictGet_append_single_ne (d : PyDict) (k k' : String) (v : PyVal) (h : k' ≠ k) :
    dictGet (d ++ [(k, v)]) k' = dictGet d k' := by
  induction d with
  | nil => simp [dictGet, List.find?, Ne.symm h]
  | cons hd t ih => by_cases ha : hd.1 = k' <;> simp [dictGet_cons, ha, ih]

/-- Overwriting one key leaves every other key's value unchanged. -/
theorem dictGet_dictSet_ne (d : PyDict) (k : String) (v : PyVal) (k' : String)
    (h : k' ≠ k) : dictGet (dictSet d k v) k' = dictGet d k' := by
  unfold dictSet
  by_cases hc : dictContains d k <;>
    simp [hc, dictGet_map_set_ne d k k' v h, dictGet_append_single_ne d k k' v h]

theorem dictGet_map_set_self (d : PyDict) (k : String) (v : PyVal)
    (h : dictContains d k = true) :
    dictGet (d.map (fun p => if p.1 = k then (k, v) else p)) k = v := by
  induction d with
  | nil => simp [dictContains] at h
  | cons hd t ih =>
    by_cases ha : hd.1 = k
    · simp [dictGet_cons, ha]
    · have h' : dictContains t k = true := by
        simp [dictContains, List.any_cons] at h ⊢
        rcases h with h | h
        · exact absurd h ha
        · exact h
      simp [dictGet_cons, ha, ih h']

theorem dictGet_append_single_self (d : PyDict) (k : String) (v : PyVal)
    (h : dictContains d k = false) :
    dictGet (d ++ [(k, v)]) k = v := by
  induction d with
  | nil => simp [dictGet, List.find?]
  | cons hd t ih =>
    have h2 : decide (hd.1 = k) = false ∧ dictContains t k = false := by
      simpa [dictContains, List.any_cons] using h
    have ha : hd.1 ≠ k := by simpa using h2.1
    simp [dictGet_cons, ha, ih h2.2]

/-- Writing a key makes a lookup of that key return the written value. -/
theorem dictGet_dictSet_self (d : PyDict) (k : String) (v : PyVal) :
    dictGet (dictSet d k v) k = v := by
  unfold dictSet
  by_cases hc : dictContains d k = true
  · simp [hc, dictGet_map_set_self d k v hc]
  · simp only [Bool.not_eq_true] at hc
    simp [hc, dictGet_append_single_self d k v hc]

/-- Lookup of `limit` in the params dict built by the offset loop. -/
theorem dictGet_offset_update_limit (params : PyDict) (a b : PyVal) :
    dictGet (dictUpdate params [("limit", a), ("offset", b)]) "limit" = a := by
  show dictGet (dictSet (dictSet params "limit" a) "offset" b) "limit" = a
  rw [dictGet_dictSet_ne _ _ _ _ (by decide), dictGet_dictSet_self]

/-- Lookup of `offset` in the params dict built by the offset loop. -/
theorem dictGet_offset_update_offset (params : PyDict) (a b : PyVal) :
    dictGet (dictUpdate params [("limit", a), ("offset", b)]) "offset" = b := by
  show dictGet (dictSet (dictSet params "limit" a) "offset" b) "offset" = b
  rw [dictGet_dictSet_self]

/-- Lookup of any other key in the params dict built by the offset loop. -/
theorem dictGet_offset_update_other (params : PyDict) (a b : PyVal) (k : String)
    (h1 : k ≠ "limit") (h2 : k ≠ "offset") :
    dictGet (dictUpdate params [("limit", a), ("offset", b)]) k = dictGet params k := by
  show dictGet (dictSet (dictSet params "limit" a) "offset" b) k = dictGet params k
  rw [dictGet_dictSet_ne _ _ _ _ h2, dictGet_dictSet_ne _ _ _ _ h1]

theorem getLast?_cons_of_ne_nil {α : Type} (a : α) (l : List α) (h : l ≠ []) :
    (a :: l).getLast? = l.getLast? := by
  cases l with
  | nil => exact absurd rfl h
  | cons b t => exact List.getLast?_cons_cons

/-! ## Claim theorems -/

/-- C3: `_extract_records_from_response` is a total, deterministic
function (it is a Lean function on all of `PyVal`) obeying exactly this
precedence: a list is returned unchanged; else a mapping containing
`data` yields that key's value (even when `results`/`items` are also
present); else `results`; else `items`; otherwise the input is wrapped
as a one-element list. -/
theorem extract_records_precedence :
    (∀ l : List PyVal,
      extract_records_from_response (PyVal.pylist l) = PyVal.pylist l) ∧
    (∀ d : PyDict, dictContains d "data" = true →
      extract_records_from_response (PyVal.pydict d) = dictGet d "data") ∧
    (∀ d : PyDict, dictContains d "data" = false → dictContains d "results" = true →
      extract_records_from_response (PyVal.pydict d) = dictGet d "results") ∧
    (∀ d : PyDict, dictContains d "data" = false → dictContains d "results" = false →
      dictContains d "items" = true →
      extract_records_from_response (PyVal.pydict d) = dictGet d "items") ∧
    (∀ d : PyDict, dictContains d "data" = false → dictContains d "results" = false →
      dictContains d "items" = false →
      extract_records_from_response (PyVal.pydict d) = PyVal.pylist [PyVal.pydict d]) ∧
    (∀ v : PyVal,
      (match v with
        | PyVal.pylist _ => False
        | PyVal.pydict _ => False
        | _ => True) →
      extract_records_from_response v = PyVal.pylist [v]) := by
  refine ⟨fun l => rfl, ?_, ?_, ?_, ?_, ?_⟩
  · intro d h; simp [extract_records_from_response, h]
  · intro d h1 h2; simp [extract_records_from_response, h1, h2]
  · intro d h1 h2 h3; simp [extract_records_from_response, h1, h2, h3]
  · intro d h1 h2 h3; simp [extract_records_from_response, h1, h2, h3]
  · intro v hv
    cases v <;> simp at hv <;> rfl

/-- Witness for C3: the precedence theorem applied at the spec's own
examples, with a `data`/`results` collision to exercise precedence. -/
theorem extract_records_precedence_witness :
    extract_records_from_response
        (PyVal.pydict [("results", PyVal.pylist [PyVal.pyint 1]),
          ("data", PyVal.pylist [PyVal.pyint 2])]) =
      PyVal.pylist [PyVal.pyint 2] ∧
    extract_records_from_response (PyVal.pydict [("results", PyVal.pylist [PyVal.pyint 3])]) =
      PyVal.pylist [PyVal.pyint 3] ∧
    extract_records_from_response (PyVal.pydict [("x", PyVal.pyint 1)]) =
      PyVal.pylist [PyVal.pydict [("x", PyVal.pyint 1)]] ∧
    extract_records_from_response (PyVal.pystr "r") = PyVal.pylist [PyVal.pystr "r"] :=
  ⟨extract_records_precedence.2.1 _ rfl,
   extract_records_precedence.2.2.1 _ rfl rfl,
   extract_records_precedence.2.2.2.2.1 _ rfl rfl rfl,
   extract_records_precedence.2.2.2.2.2 _ trivial⟩

/-- C7 fails as stated: the code only strips the endpoint's leading
slashes (`endpoint.lstrip('/')`) and never strips a trailing slash from
`base_url`, so `base_url = "http://a/"` with `endpoint = "/b"` yields
`"http://a//b"`, not the single-separator join `"http://a/b"`. -/
theorem buildUrl_counterexample :
    buildUrl "http://a/" "/b" = "http://a//b" ∧
    ("http://a//b" : String) ≠ "http://a/b" := by
  exact ⟨rfl, by decide⟩

/-- C7 amended: the URL is `base_url ++ "/" ++ endpoint.lstrip('/')`;
leading slashes of the endpoint are irrelevant and the stripped endpoint
never starts with `/`, so exactly one separator appears whenever
`base_url` itself does not end in `/` (which is not stripped). -/
theorem buildUrl_amended :
    (∀ base ep, buildUrl base ("/" ++ ep) = buildUrl base ep) ∧
    (∀ base ep, buildUrl base ep = base ++ "/" ++ lstripSlash ep) ∧
    (∀ ep c rest, (lstripSlash ep).data = c :: rest → c ≠ '/') ∧
    buildUrl "http://a" "/b" = "http://a/b" := by
  refine ⟨?_, fun base ep => rfl, ?_, rfl⟩
  · intro base ep
    have hdata : ("/" ++ ep).data = '/' :: ep.data := by
      rw [String.data_append]; rfl
    simp only [buildUrl, lstripSlash, hdata, List.dropWhile_cons, decide_True, if_true]
  · intro ep c rest h hc
    have := dropWhile_head_not (fun ch => ch = '/') ep.data c rest h
    rw [hc] at this
    simp at this

/-- Witness for C7's amended theorem: prepending a slash to the endpoint
leaves the URL unchanged, and the stripped head of `"/b"` is not `/`. -/
theorem buildUrl_amended_witness :
    buildUrl "x" ("/" ++ "y") = buildUrl "x" "y" ∧ ('b' : Char) ≠ '/' :=
  ⟨buildUrl_amended.1 "x" "y", buildUrl_amended.2.2.1 "/b" 'b' [] rfl⟩

/-- C8: `_get_nested_value` splits the dotted path and walks the
mappings key by key, returning `None` (not raising) as soon as a segment
is missing (`dict.get` of an absent key) or the current value is not a
mapping; checked on the spec's three examples. -/
theorem get_nested_value_spec :
    (∀ data path, get_nested_value data path = walkKeys (splitDot path) data) ∧
    (∀ v, walkKeys [] v = v) ∧
    (∀ k ks (d : PyDict), walkKeys (k :: ks) (PyVal.pydict d) = walkKeys ks (dictGet d k)) ∧
    (∀ k ks v, (∀ d : PyDict, v ≠ PyVal.pydict d) → walkKeys (k :: ks) v = PyVal.pynone) ∧
    get_nested_value (PyVal.pydict [("a", PyVal.pydict [("b", PyVal.pystr "c")])]) "a.b" =
      PyVal.pystr "c" ∧
    get_nested_value (PyVal.pydict [("a", PyVal.pydict [])]) "a.b" = PyVal.pynone ∧
    get_nested_value (PyVal.pydict []) "a.b" = PyVal.pynone := by
  refine ⟨fun data path => rfl, fun v => rfl, fun k ks d => rfl, ?_, rfl, rfl, rfl⟩
  intro k ks v hv
  cases v with
  | pydict d => exact absurd rfl (hv d)
  | pynone => rfl
  | pybool b => rfl
  | pyint i => rfl
  | pystr s => rfl
  | pylist l => rfl

/-- Witness for C8: the non-mapping short-circuit applied at a concrete
non-dict value. -/
theorem get_nested_value_spec_witness :
    walkKeys ["a"] (PyVal.pyint 0) = PyVal.pynone :=
  get_nested_value_spec.2.2.2.1 "a" [] (PyVal.pyint 0) (fun _ h => PyVal.noConfusion h)

/-- Once the `max_pages` guard fires, the offset loop does nothing, for
any remaining fuel. -/
theorem paginate_offset_loop_of_hit (fetch : PyDict → Except Unit PyVal) (limit : Int)
    (mp : Option Int) (offset page : Int) (params : PyDict)
    (h : maxPagesHit mp page = true) :
    ∀ fuel, paginate_offset_loop fetch limit mp fuel offset page params = ⟨[], [], params⟩ := by
  intro fuel
  cases fuel with
  | zero => rfl
  | succ n => simp [paginate_offset_loop, h]

/-- The fake offset backend always answers successfully with a bare
list, so extraction always yields a record sequence. -/
theorem backend100_ok_list :
    ∀ p d, backend100 p = Except.ok d →
      ∃ l, extract_records_from_response d = PyVal.pylist l := by
  intro p d h
  unfold backend100 at h
  split at h <;> (cases h; exact ⟨_, rfl⟩)

/-- The code's offset loop yields exactly the pages of the spec's offset
state machine whenever `max_pages` is not the degenerate `0` and the
backend's responses extract to record sequences. -/
theorem offset_refines_aux (fetch : PyDict → Except Unit PyVal) (limit : Int)
    (mp : Option Int) (hmp : mp ≠ some 0)
    (hlist : ∀ p d, fetch p = Except.ok d →
      ∃ l, extract_records_from_response d = PyVal.pylist l) :
    ∀ fuel offset page params,
      (paginate_offset_loop fetch limit mp fuel offset page params).pages =
        spec_offset_pages fetch limit mp fuel offset page params := by
  intro fuel
  induction fuel with
  | zero => intro offset page params; rfl
  | succ n ih =>
    intro offset page params
    have hguard : maxPagesHit mp page = specMaxPagesHit mp page := by
      cases mp with
      | none => rfl
      | some m =>
        have hm : m ≠ 0 := fun h => hmp (by rw [h])
        simp [maxPagesHit, specMaxPagesHit, hm]
    simp only [paginate_offset_loop, spec_offset_pages, hguard]
    by_cases hg : specMaxPagesHit mp page = true
    · simp [hg]
    · simp only [hg, Bool.false_eq_true, if_false]
      cases hf : fetch (dictUpdate params
          [("limit", PyVal.pyint limit), ("offset", PyVal.pyint offset)]) with
      | error e => simp [hf]
      | ok d =>
        obtain ⟨l, hl⟩ := hlist _ _ hf
        simp only [hf, hl]
        cases l with
        | nil => simp [pyTruthy]
        | cons a as =>
          simp only [pyTruthy, pyLen]
          by_cases hlim : ((as.length : Int) + 1 < limit)
          · simp [hlim]
          · simp [hlim, ih]

/-- C4: the offset paginator starting at `offset = 0` stops exactly
under the spec's conditions — empty extraction, short page (still
yielded), or `max_pages` reached before the next fetch — and otherwise
advances `offset` by `limit`: its yielded pages coincide with the
spec-side state machine `spec_offset_pages` for every backend whose
responses extract to record sequences and every `max_pages` other than
the degenerate `0` (whose truthiness-guard behaviour is claim C9).
Concretely: a backend serving pages of sizes `[100, 100, 40]` under
`limit = 100` yields exactly 3 pages from 3 requests, and
`max_pages = 1` yields at most one page for every backend — exactly one
on that backend. -/
theorem paginate_offset_stop_conditions :
    (∀ fetch limit mp fuel params, mp ≠ some 0 →
      (∀ p d, fetch p = Except.ok d →
        ∃ l, extract_records_from_response d = PyVal.pylist l) →
      (paginate_offset fetch limit mp fuel params).pages =
        spec_offset_pages fetch limit mp fuel 0 0 params) ∧
    (∀ n, (paginate_offset backend100 100 none (n + 3) []).pages =
        [sizedPage 100, sizedPage 100, sizedPage 40] ∧
      (paginate_offset backend100 100 none (n + 3) []).requests.length = 3) ∧
    (∀ fetch limit params fuel,
      (paginate_offset fetch limit (some 1) fuel params).pages.length ≤ 1) ∧
    (∀ n, (paginate_offset backend100 100 (some 1) (n + 1) []).pages = [sizedPage 100]) := by
  refine ⟨?_, ?_, ?_, ?_⟩
  · intro fetch limit mp fuel params hmp hlist
    exact offset_refines_aux fetch limit mp hmp hlist fuel 0 0 params
  · intro n
    exact ⟨rfl, rfl⟩
  · intro fetch limit params fuel
    cases fuel with
    | zero => simp [paginate_offset, paginate_offset_loop]
    | succ n =>
      show (paginate_offset_loop fetch limit (some 1) (n + 1) 0 0 params).pages.length ≤ 1
      simp only [paginate_offset_loop]
      have hg : maxPagesHit (some 1) 0 = false := rfl
      simp only [hg, Bool.false_eq_true, if_false]
      cases hf : fetch (dictUpdate params
          [("limit", PyVal.pyint limit), ("offset", PyVal.pyint 0)]) with
      | error e => simp [hf]
      | ok d =>
        simp only [hf]
        split
        · simp
        · split
          · simp
          · split
            · simp
            · rw [paginate_offset_loop_of_hit fetch limit (some 1) (0 + limit) (0 + 1) _
                (by decide)]
              simp
  · intro n
    have h1 : (paginate_offset backend100 100 (some 1) (n + 1) []).pages =
        sizedPage 100 :: (paginate_offset_loop backend100 100 (some 1) n 100 1
          (dictUpdate [] [("limit", PyVal.pyint 100), ("offset", PyVal.pyint 0)])).pages := rfl
    rw [h1, paginate_offset_loop_of_hit backend100 100 (some 1) 100 1 _ (by decide)]

/-- Witness for C4: the refinement applied at the fake backend with
`max_pages = 2` (code pages equal spec pages). -/
theorem paginate_offset_stop_conditions_witness :
    (paginate_offset backend100 100 (some 2) 6 []).pages =
      spec_offset_pages backend100 100 (some 2) 6 0 0 [] :=
  paginate_offset_stop_conditions.1 backend100 100 (some 2) 6 []
    (by decide) backend100_ok_list

/-- C5: the cursor paginator sends no cursor parameter on the first
request (the initial `cursor = None` is falsy, so the caller's params
dict goes out untouched); whenever a fetched page is non-empty but the
response's cursor at `cursor_path` is falsy/absent, that page is still
yielded and the run stops with no further request — for every backend,
any held cursor and any remaining fuel; and on the backend whose cursors
run `c1 → c2 → absent` it yields exactly 3 pages from exactly 3
requests. -/
theorem paginate_cursor_stops_on_falsy_cursor :
    (∀ fetch cp cpath mp params fuel, maxPagesHit mp 0 = false → 1 ≤ fuel →
      (paginate_cursor fetch cp cpath mp fuel params).requests.head? = some params) ∧
    (∀ fetch cp cpath mp fuel cursor page params d,
      maxPagesHit mp page = false →
      fetch (if pyTruthy cursor then dictSet params cp cursor else params) = Except.ok d →
      pyTruthy (extract_records_from_response d) = true →
      pyTruthy (get_nested_value d cpath) = false →
      paginate_cursor_loop fetch cp cpath mp (fuel + 1) cursor page params =
        ⟨[extract_records_from_response d],
         [if pyTruthy cursor then dictSet params cp cursor else params],
         if pyTruthy cursor then dictSet params cp cursor else params⟩) ∧
    (∀ n, (paginate_cursor cursorBackend "cursor" "next_cursor" none (n + 3) []).pages =
        [PyVal.pylist [PyVal.pyint 1], PyVal.pylist [PyVal.pyint 2],
          PyVal.pylist [PyVal.pyint 3]] ∧
      (paginate_cursor cursorBackend "cursor" "next_cursor" none (n + 3) []).requests =
        [[], [("cursor", PyVal.pystr "c1")], [("cursor", PyVal.pystr "c2")]]) := by
  refine ⟨?_, ?_, ?_⟩
  · intro fetch cp cpath mp params fuel hg hfuel
    cases fuel with
    | zero => omega
    | succ n =>
      show (paginate_cursor_loop fetch cp cpath mp (n + 1) PyVal.pynone 0 params).requests.head? =
        some params
      simp only [paginate_cursor_loop, hg, Bool.false_eq_true, if_false]
      have hcur : pyTruthy PyVal.pynone = false := rfl
      simp only [hcur, Bool.false_eq_true, if_false]
      cases hf : fetch params with
      | error e => simp [hf]
      | ok d =>
        simp only [hf]
        split
        · simp
        · split <;> simp
  · intro fetch cp cpath mp fuel cursor page params d hg hf ht hc
    simp only [paginate_cursor_loop, hg, Bool.false_eq_true, if_false, hf, ht, hc]
    simp
  · intro n
    exact ⟨rfl, rfl⟩

/-- Witness for C5: the first request of a run carries the caller's
params untouched, and the one-step stop lemma applied to the single-page
backend (non-empty page, absent cursor → exactly that page, one
request). -/
theorem paginate_cursor_stops_on_falsy_cursor_witness :
    (paginate_cursor cursorBackend "cursor" "next_cursor" none 1
        [("k", PyVal.pyint 9)]).requests.head? = some [("k", PyVal.pyint 9)] ∧
    paginate_cursor_loop singlePageBackend "cursor" "next_cursor" none 1 PyVal.pynone 0 [] =
      ⟨[PyVal.pylist [PyVal.pyint 1]], [[]], []⟩ := by
  constructor
  · exact paginate_cursor_stops_on_falsy_cursor.1 cursorBackend "cursor" "next_cursor"
      none [("k", PyVal.pyint 9)] 1 rfl (by omega)
  · have h := paginate_cursor_stops_on_falsy_cursor.2.1 singlePageBackend "cursor"
      "next_cursor" none 0 PyVal.pynone 0 []
      (PyVal.pydict [("data", PyVal.pylist [PyVal.pyint 1])]) rfl rfl rfl rfl
    exact h

/-- In the offset loop, either no request is issued and the caller's
dict is untouched, or the caller's dict ends as the params of the last
issued request. -/
theorem offset_loop_last_params (fetch : PyDict → Except Unit PyVal) (limit : Int)
    (mp : Option Int) :
    ∀ fuel offset page params,
      ((paginate_offset_loop fetch limit mp fuel offset page params).requests = [] ∧
        (paginate_offset_loop fetch limit mp fuel offset page params).finalParams = params) ∨
      (paginate_offset_loop fetch limit mp fuel offset page params).requests.getLast? =
        some (paginate_offset_loop fetch limit mp fuel offset page params).finalParams := by
  intro fuel
  induction fuel with
  | zero => intro offset page params; exact Or.inl ⟨rfl, rfl⟩
  | succ n ih =>
    intro offset page params
    by_cases hg : maxPagesHit mp page = true
    · exact Or.inl (by constructor <;> simp [paginate_offset_loop, hg])
    · cases hf : fetch (dictUpdate params
          [("limit", PyVal.pyint limit), ("offset", PyVal.pyint offset)]) with
      | error e => right; simp [paginate_offset_loop, hg, hf]
      | ok d =>
        by_cases ht : pyTruthy (extract_records_from_response d) = false
        · right; simp [paginate_offset_loop, hg, hf, ht]
        · cases hlen : pyLen (extract_records_from_response d) with
          | none => right; simp [paginate_offset_loop, hg, hf, ht, hlen]
          | some ln =>
            by_cases hlim : (ln : Int) < limit
            · right; simp [paginate_offset_loop, hg, hf, ht, hlen, hlim]
            · rcases ih (offset + limit) (page + 1) (dictUpdate params
                  [("limit", PyVal.pyint limit), ("offset", PyVal.pyint offset)]) with
                ⟨hreq, hfin⟩ | hlast
              · right; simp [paginate_offset_loop, hg, hf, ht, hlen, hlim, hreq, hfin]
              · right
                have hne : (paginate_offset_loop fetch limit mp n (offset + limit) (page + 1)
                    (dictUpdate params [("limit", PyVal.pyint limit),
                      ("offset", PyVal.pyint offset)])).requests ≠ [] := by
                  intro hnil
                  rw [hnil] at hlast
                  simp at hlast
                simp [paginate_offset_loop, hg, hf, ht, hlen, hlim]
                rw [getLast?_cons_of_ne_nil _ _ hne]
                exact hlast

/-- In the offset loop, once a request was issued the caller's dict
holds the injected `limit` value and some injected `offset` value. -/
theorem offset_loop_final_shape (fetch : PyDict → Except Unit PyVal) (limit : Int)
    (mp : Option Int) :
    ∀ fuel offset page params,
      ((paginate_offset_loop fetch limit mp fuel offset page params).requests = [] ∧
        (paginate_offset_loop fetch limit mp fuel offset page params).finalParams = params) ∨
      (∃ p off, (paginate_offset_loop fetch limit mp fuel offset page params).finalParams =
        dictUpdate p [("limit", PyVal.pyint limit), ("offset", PyVal.pyint off)]) := by
  intro fuel
  induction fuel with
  | zero => intro offset page params; exact Or.inl ⟨rfl, rfl⟩
  | succ n ih =>
    intro offset page params
    by_cases hg : maxPagesHit mp page = true
    · exact Or.inl (by constructor <;> simp [paginate_offset_loop, hg])
    · cases hf : fetch (dictUpdate params
          [("limit", PyVal.pyint limit), ("offset", PyVal.pyint offset)]) with
      | error e =>
        right
        exact ⟨params, offset, by simp [paginate_offset_loop, hg, hf]⟩
      | ok d =>
        by_cases ht : pyTruthy (extract_records_from_response d) = false
        · right; exact ⟨params, offset, by simp [paginate_offset_loop, hg, hf, ht]⟩
        · cases hlen : pyLen (extract_records_from_response d) with
          | none =>
            right
            exact ⟨params, offset, by simp [paginate_offset_loop, hg, hf, ht, hlen]⟩
          | some ln =>
            by_cases hlim : (ln : Int) < limit
            · right
              exact ⟨params, offset, by simp [paginate_offset_loop, hg, hf, ht, hlen, hlim]⟩
            · rcases ih (offset + limit) (page + 1) (dictUpdate params
                  [("limit", PyVal.pyint limit), ("offset", PyVal.pyint offset)]) with
                ⟨hreq, hfin⟩ | ⟨p, off, hshape⟩
              · right
                exact ⟨params, offset,
                  by simp [paginate_offset_loop, hg, hf, ht, hlen, hlim, hfin]⟩
              · right
                exact ⟨p, off,
                  by simp [paginate_offset_loop, hg, hf, ht, hlen, hlim, hshape]⟩

/-- The offset loop only writes the `limit` and `offset` keys of the
caller's params dict: every other key keeps its value. -/
theorem offset_loop_final_other (fetch : PyDict → Except Unit PyVal) (limit : Int)
    (mp : Option Int) (k : String) (h1 : k ≠ "limit") (h2 : k ≠ "offset") :
    ∀ fuel offset page params,
      dictGet (paginate_offset_loop fetch limit mp fuel offset page params).finalParams k =
        dictGet params k := by
  intro fuel
  induction fuel with
  | zero => intro offset page params; rfl
  | succ n ih =>
    intro offset page params
    by_cases hg : maxPagesHit mp page = true
    · simp [paginate_offset_loop, hg]
    · cases hf : fetch (dictUpdate params
          [("limit", PyVal.pyint limit), ("offset", PyVal.pyint offset)]) with
      | error e => simp [paginate_offset_loop, hg, hf, dictGet_offset_update_other _ _ _ _ h1 h2]
      | ok d =>
        by_cases ht : pyTruthy (extract_records_from_response d) = false
        · simp [paginate_offset_loop, hg, hf, ht, dictGet_offset_update_other _ _ _ _ h1 h2]
        · cases hlen : pyLen (extract_records_from_response d) with
          | none =>
            simp [paginate_offset_loop, hg, hf, ht, hlen,
              dictGet_offset_update_other _ _ _ _ h1 h2]
          | some ln =>
            by_cases hlim : (ln : Int) < limit
            · simp [paginate_offset_loop, hg, hf, ht, hlen, hlim,
                dictGet_offset_update_other _ _ _ _ h1 h2]
            · have hrec := ih (offset + limit) (page + 1) (dictUpdate params
                [("limit", PyVal.pyint limit), ("offset", PyVal.pyint offset)])
              simp [paginate_offset_loop, hg, hf, ht, hlen, hlim, hrec,
                dictGet_offset_update_other _ _ _ _ h1 h2]

/-- Cursor-loop analogue of `offset_loop_last_params`. -/
theorem cursor_loop_last_params (fetch : PyDict → Except Unit PyVal)
    (cp cpath : String) (mp : Option Int) :
    ∀ fuel cursor page params,
      ((paginate_cursor_loop fetch cp cpath mp fuel cursor page params).requests = [] ∧
        (paginate_cursor_loop fetch cp cpath mp fuel cursor page params).finalParams = params) ∨
      (paginate_cursor_loop fetch cp cpath mp fuel cursor page params).requests.getLast? =
        some (paginate_cursor_loop fetch cp cpath mp fuel cursor page params).finalParams := by
  intro fuel
  induction fuel with
  | zero => intro cursor page params; exact Or.inl ⟨rfl, rfl⟩
  | succ n ih =>
    intro cursor page params
    by_cases hg : maxPagesHit mp page = true
    · exact Or.inl (by constructor <;> simp [paginate_cursor_loop, hg])
    · cases hf : fetch (if pyTruthy cursor then dictSet params cp cursor else params) with
      | error e => right; simp [paginate_cursor_loop, hg, hf]
      | ok d =>
        by_cases ht : pyTruthy (extract_records_from_response d) = false
        · right; simp [paginate_cursor_loop, hg, hf, ht]
        · by_cases hc : pyTruthy (get_nested_value d cpath) = false
          · right; simp [paginate_cursor_loop, hg, hf, ht, hc]
          · rcases ih (get_nested_value d cpath) (page + 1)
                (if pyTruthy cursor then dictSet params cp cursor else params) with
              ⟨hreq, hfin⟩ | hlast
            · right; simp [paginate_cursor_loop, hg, hf, ht, hc, hreq, hfin]
            · right
              have hne : (paginate_cursor_loop fetch cp cpath mp n (get_nested_value d cpath)
                  (page + 1)
                  (if pyTruthy cursor then dictSet params cp cursor else params)).requests ≠
                  [] := by
                intro hnil
                rw [hnil] at hlast
                simp at hlast
              simp [paginate_cursor_loop, hg, hf, ht, hc]
              rw [getLast?_cons_of_ne_nil _ _ hne]
              exact hlast

/-- The cursor loop only ever writes the `cursor_param` key of the
caller's params dict: every other key keeps its value. -/
theorem cursor_loop_final_other (fetch : PyDict → Except Unit PyVal)
    (cp cpath : String) (mp : Option Int) (k : String) (h1 : k ≠ cp) :
    ∀ fuel cursor page params,
      dictGet (paginate_cursor_loop fetch cp cpath mp fuel cursor page params).finalParams k =
        dictGet params k := by
  intro fuel
  induction fuel with
  | zero => intro cursor page params; rfl
  | succ n ih =>
    intro cursor page params
    have hset : ∀ cur : PyVal,
        dictGet (if pyTruthy cur then dictSet params cp cur else params) k =
          dictGet params k := by
      intro cur
      by_cases hcur : pyTruthy cur = true
      · simp [hcur, dictGet_dictSet_ne _ _ _ _ h1]
      · simp [hcur]
    by_cases hg : maxPagesHit mp page = true
    · simp [paginate_cursor_loop, hg]
    · cases hf : fetch (if pyTruthy cursor then dictSet params cp cursor else params) with
      | error e => simp [paginate_cursor_loop, hg, hf, hset]
      | ok d =>
        by_cases ht : pyTruthy (extract_records_from_response d) = false
        · simp [paginate_cursor_loop, hg, hf, ht, hset]
        · by_cases hc : pyTruthy (get_nested_value d cpath) = false
          · simp [paginate_cursor_loop, hg, hf, ht, hc, hset]
          · have hrec := ih (get_nested_value d cpath) (page + 1)
              (if pyTruthy cursor then dictSet params cp cursor else params)
            simp [paginate_cursor_loop, hg, hf, ht, hc, hrec, hset]

/-- Whenever the `max_pages` guard lets the first iteration run, the
offset paginator issues at least one request. -/
theorem offset_loop_requests_ne (fetch : PyDict → Except Unit PyVal) (limit : Int)
    (mp : Option Int) (params : PyDict) (fuel : Nat)
    (hg : maxPagesHit mp 0 = false) (hfuel : 1 ≤ fuel) :
    (paginate_offset fetch limit mp fuel params).requests ≠ [] := by
  cases fuel with
  | zero => omega
  | succ n =>
    show (paginate_offset_loop fetch limit mp (n + 1) 0 0 params).requests ≠ []
    simp only [paginate_offset_loop, hg, Bool.false_eq_true, if_false]
    cases hf : fetch (dictUpdate params
        [("limit", PyVal.pyint limit), ("offset", PyVal.pyint 0)]) with
    | error e => simp [hf]
    | ok d =>
      simp only [hf]
      split
      · simp
      · split
        · simp
        · split <;> simp

/-- C10 fails as stated: in the cursor variant the cursor key is only
injected once a truthy cursor has been obtained, so after paginating a
single-page backend (one page yielded, no next cursor) the caller's
mapping is exactly its original contents, with no cursor-parameter key
at all. -/
theorem paginate_params_counterexample :
    (paginate_cursor singlePageBackend "cursor" "next_cursor" none 5
        [("x", PyVal.pyint 7)]).finalParams = [("x", PyVal.pyint 7)] ∧
    dictContains (paginate_cursor singlePageBackend "cursor" "next_cursor" none 5
        [("x", PyVal.pyint 7)]).finalParams "cursor" = false ∧
    (paginate_cursor singlePageBackend "cursor" "next_cursor" none 5
        [("x", PyVal.pyint 7)]).pages.length = 1 :=
  ⟨rfl, rfl, rfl⟩

/-- C10 amended: the caller's params dict is mutated in place, and after
pagination it is exactly the params dict sent with the last issued
request (untouched only when no request was issued). In the offset
variant any issued request leaves the injected `limit` key (holding
`limit`) and an injected `offset` key (holding the offset last used),
and at least one request is issued whenever the `max_pages` guard lets
the first iteration run. In the cursor variant the cursor key is
injected only when a truthy cursor was extracted from the previous page
(hence possibly never). In both variants every key other than the
injected ones keeps its caller-supplied value. -/
theorem paginate_params_mutation_amended :
    (∀ fetch limit mp fuel offset page params,
      ((paginate_offset_loop fetch limit mp fuel offset page params).requests = [] ∧
        (paginate_offset_loop fetch limit mp fuel offset page params).finalParams = params) ∨
      ((paginate_offset_loop fetch limit mp fuel offset page params).requests.getLast? =
          some (paginate_offset_loop fetch limit mp fuel offset page params).finalParams ∧
        dictGet (paginate_offset_loop fetch limit mp fuel offset page params).finalParams
            "limit" = PyVal.pyint limit ∧
        ∃ off,
          dictGet (paginate_offset_loop fetch limit mp fuel offset page params).finalParams
            "offset" = PyVal.pyint off)) ∧
    (∀ fetch limit mp params fuel, maxPagesHit mp 0 = false → 1 ≤ fuel →
      (paginate_offset fetch limit mp fuel params).requests ≠ []) ∧
    (∀ fetch limit mp fuel offset page params k, k ≠ "limit" → k ≠ "offset" →
      dictGet (paginate_offset_loop fetch limit mp fuel offset page params).finalParams k =
        dictGet params k) ∧
    (∀ fetch cp cpath mp fuel cursor page params,
      ((paginate_cursor_loop fetch cp cpath mp fuel cursor page params).requests = [] ∧
        (paginate_cursor_loop fetch cp cpath mp fuel cursor page params).finalParams =
          params) ∨
      (paginate_cursor_loop fetch cp cpath mp fuel cursor page params).requests.getLast? =
        some (paginate_cursor_loop fetch cp cpath mp fuel cursor page params).finalParams) ∧
    (∀ fetch cp cpath mp fuel cursor page params k, k ≠ cp →
      dictGet (paginate_cursor_loop fetch cp cpath mp fuel cursor page params).finalParams k =
        dictGet params k) := by
  refine ⟨?_, ?_, ?_, ?_, ?_⟩
  · intro fetch limit mp fuel offset page params
    rcases offset_loop_last_params fetch limit mp fuel offset page params with hleft | hlast
    · exact Or.inl hleft
    · rcases offset_loop_final_shape fetch limit mp fuel offset page params with
        ⟨hreq, hfin⟩ | ⟨p, off, hshape⟩
      · exact Or.inl ⟨hreq, hfin⟩
      · refine Or.inr ⟨hlast, ?_, ⟨off, ?_⟩⟩
        · rw [hshape, dictGet_offset_update_limit]
        · rw [hshape, dictGet_offset_update_offset]
  · exact fun fetch limit mp params fuel hg hfuel =>
      offset_loop_requests_ne fetch limit mp params fuel hg hfuel
  · exact fun fetch limit mp fuel offset page params k h1 h2 =>
      offset_loop_final_other fetch limit mp k h1 h2 fuel offset page params
  · exact fun fetch cp cpath mp fuel cursor page params =>
      cursor_loop_last_params fetch cp cpath mp fuel cursor page params
  · exact fun fetch cp cpath mp fuel cursor page params k h1 =>
      cursor_loop_final_other fetch cp cpath mp k h1 fuel cursor page params

/-- Witness for C10's amended theorem: on the fake offset backend the
final params dict is the last request's (`limit = 100`, `offset` of the
last request), a request was issued, and a caller-supplied key keeps its
value; the single-page cursor run keeps the caller's key too. -/
theorem paginate_params_mutation_amended_witness :
    dictGet (paginate_offset_loop backend100 100 none 6 0 0
        [("x", PyVal.pyint 7)]).finalParams "x" = dictGet [("x", PyVal.pyint 7)] "x" ∧
    (paginate_offset backend100 100 none 6 [("x", PyVal.pyint 7)]).requests ≠ [] ∧
    dictGet (paginate_cursor_loop singlePageBackend "cursor" "next_cursor" none 5
        PyVal.pynone 0 [("x", PyVal.pyint 7)]).finalParams "x" =
      dictGet [("x", PyVal.pyint 7)] "x" :=
  ⟨paginate_params_mutation_amended.2.2.1 backend100 100 none 6 0 0 [("x", PyVal.pyint 7)]
      "x" (by decide) (by decide),
   paginate_params_mutation_amended.2.1 backend100 100 none [("x", PyVal.pyint 7)] 6
      rfl (by omega),
   paginate_params_mutation_amended.2.2.2.2 singlePageBackend "cursor" "next_cursor" none 5
      PyVal.pynone 0 [("x", PyVal.pyint 7)] "x" (by decide)⟩

/-- C2 diverges from the code: the retry decorator hard-codes
`stop_after_attempt(3)` and never consults `config.max_retries`. With
`max_retries = 5` and a request failing on every attempt (attempt `k`
raising error `k`), `_make_request` performs exactly 3 attempts —
not 5 — then re-raises the original error of the final (third) attempt,
having slept the `wait_exponential(multiplier=1, min=2, max=10)`
backoffs `max(2, min(1 * 2^(k-1), 10)) = 2` after attempts `k = 1, 2`. -/
theorem make_request_ignores_configured_retries :
    (make_request 5 (fun k => Except.error k)).attemptsMade = 3 ∧
    (make_request 5 (fun k => Except.error k)).result = Except.error 3 ∧
    (make_request 5 (fun k => Except.error k)).delays =
      [wait_exponential 1 2 10 1, wait_exponential 1 2 10 2] ∧
    wait_exponential 1 2 10 1 = 2 ∧
    wait_exponential 1 2 10 2 = 2 ∧
    stopAfterAttempt = 3 ∧ (3 : Nat) ≠ 5 := by
  refine ⟨rfl, rfl, rfl, ?_, ?_, rfl, by decide⟩
  · norm_num [wait_exponential]
  · norm_num [wait_exponential]

/-- C9: because the guard `if max_pages and page >= max_pages:` tests
Python truthiness of `max_pages` first, `max_pages = 0` is
indistinguishable from `max_pages = None`: both paginators run unlimited,
for every backend, every starting state and every fuel. -/
theorem max_pages_zero_unlimited :
    (∀ fetch limit fuel offset page params,
      paginate_offset_loop fetch limit (some 0) fuel offset page params =
        paginate_offset_loop fetch limit none fuel offset page params) ∧
    (∀ fetch cp cpath fuel cursor page params,
      paginate_cursor_loop fetch cp cpath (some 0) fuel cursor page params =
        paginate_cursor_loop fetch cp cpath none fuel cursor page params) := by
  constructor
  · intro fetch limit fuel
    induction fuel with
    | zero => intro offset page params; rfl
    | succ n ih =>
      intro offset page params
      simp only [paginate_offset_loop, maxPagesHit]
      simp only [ih]
      simp
  · intro fetch cp cpath fuel
    induction fuel with
    | zero => intro cursor page params; rfl
    | succ n ih =>
      intro cursor page params
      simp only [paginate_cursor_loop, maxPagesHit]
      simp only [ih]
      simp

/-- C6: an exception during a pagination fetch step (either variant) is
caught at the paginator boundary: the run is observationally identical —
same yielded pages, same issued requests, same final params dict — to a
run against a backend that answers end-of-data (`{"data": []}`) instead
of raising. In particular no partial page is yielded for the failed step
and nothing is re-raised (the embedding of the paginators is total). -/
theorem pagination_error_is_end_of_data :
    (∀ fetch limit mp fuel offset page params,
      paginate_offset_loop (errToEmptyData fetch) limit mp fuel offset page params =
        paginate_offset_loop fetch limit mp fuel offset page params) ∧
    (∀ fetch cp cpath mp fuel cursor page params,
      paginate_cursor_loop (errToEmptyData fetch) cp cpath mp fuel cursor page params =
        paginate_cursor_loop fetch cp cpath mp fuel cursor page params) := by
  constructor
  · intro fetch limit mp fuel
    induction fuel with
    | zero => intro offset page params; rfl
    | succ n ih =>
      intro offset page params
      simp only [paginate_offset_loop]
      by_cases hmp : maxPagesHit mp page
      · simp [hmp]
      · simp only [hmp, Bool.false_eq_true, if_false]
        cases hf : fetch (dictUpdate params
            [("limit", PyVal.pyint limit), ("offset", PyVal.pyint offset)]) with
        | error e =>
          simp [errToEmptyData, hf, extract_records_from_response, dictContains,
            dictGet, pyTruthy]
        | ok d =>
          simp only [errToEmptyData, hf]
          simp [ih]
  · intro fetch cp cpath mp fuel
    induction fuel with
    | zero => intro cursor page params; rfl
    | succ n ih =>
      intro cursor page params
      simp only [paginate_cursor_loop]
      by_cases hmp : maxPagesHit mp page
      · simp [hmp]
      · simp only [hmp, Bool.false_eq_true, if_false]
        cases hf : fetch (if pyTruthy cursor then dictSet params cp cursor else params) with
        | error e =>
          have h2 : errToEmptyData fetch
              (if pyTruthy cursor then dictSet params cp cursor else params) =
              Except.ok (PyVal.pydict [("data", PyVal.pylist [])]) := by
            simp [errToEmptyData, hf]
          simp only [h2, hf]
          rfl
        | ok d =>
          simp only [errToEmptyData, hf]
          simp [ih]

theorem listMin_mem : ∀ l : List ℚ, l ≠ [] → listMin l ∈ l
  | [], h => absurd rfl h
  | [t], _ => by simp [listMin]
  | t :: t2 :: ts, _ => by
    simp only [listMin]
    rcases min_choice t (listMin (t2 :: ts)) with h | h
    · rw [h]; exact List.mem_cons_self _ _
    · rw [h]; exact List.mem_cons_of_mem _ (listMin_mem (t2 :: ts) (by simp))

theorem sleepTime_nonneg (quota : Nat) (period now : ℚ) (calls : List ℚ) :
    0 ≤ sleepTime quota period now calls := by
  unfold sleepTime
  split
  · split
    · linarith
    · exact le_refl 0
  · exact le_refl 0

/-- Pruning at a later instant subsumes an earlier pruning. -/
theorem pruneCalls_pruneCalls (w n m : ℚ) (h : n ≤ m) (l : List ℚ) :
    pruneCalls w m (pruneCalls w n l) = pruneCalls w m l := by
  unfold pruneCalls
  rw [List.filter_filter]
  apply List.filter_congr
  intro t ht
  by_cases h1 : m - t < w
  · have h2 : n - t < w := by linarith
    simp [h1, h2]
  · simp [h1]

/-- Core step bound: under the invariant, at most `quota - 1` of the
already-accepted timestamps are still within one period of the newly
recorded timestamp `n2`. This is where the sleep matters: when the
in-window count has reached the quota, the limiter sleeps past
`oldest + period`, pushing the oldest in-window call out of the window
ending at `n2`. -/
theorem rl_core_step (quota : Nat) (period : ℚ) (A calls : List ℚ) (last n n2 : ℚ)
    (hq : 1 ≤ quota) (hw : 0 < period)
    (inv : RLInv quota period A calls last)
    (hn : last ≤ n) (hn2 : n + sleepTime quota period n calls ≤ n2) :
    A.countP (fun t => decide (n2 - t < period)) ≤ quota - 1 := by
  have hprune : pruneCalls period n calls = pruneCalls period n A := inv.prune_eq n hn
  have hnn2 : n ≤ n2 := le_trans (le_add_of_nonneg_right
    (sleepTime_nonneg quota period n calls)) hn2
  have hlenA : (pruneCalls period n A).length = A.countP (fun t => decide (n - t < period)) := by
    unfold pruneCalls
    rw [List.countP_eq_length_filter]
  by_cases hcase : quota ≤ (pruneCalls period n calls).length
  · have hlen_le : (pruneCalls period n A).length ≤ quota := by
      rw [hlenA]
      calc A.countP (fun t => decide (n - t < period)) ≤
          A.countP (fun t => decide (last - t < period)) := by
            apply List.countP_mono_left
            intro t htA hdec
            simp only [decide_eq_true_eq] at hdec ⊢
            linarith
        _ ≤ quota := inv.tail_count
    have hne : pruneCalls period n calls ≠ [] := by
      intro hnil
      rw [hnil] at hcase
      simp at hcase
      omega
    set m := listMin (pruneCalls period n calls) with hm
    have hmem : m ∈ pruneCalls period n calls := listMin_mem _ hne
    have hmwin : n - m < period := by
      have := List.of_mem_filter hmem
      simpa using this
    have hs : sleepTime quota period n calls = period - (n - m) := by
      unfold sleepTime
      rw [if_pos hcase, if_pos (by linarith)]
    have hpush : m + period ≤ n2 := by
      rw [hs] at hn2
      linarith
    have hmemA : m ∈ pruneCalls period n A := by rw [← hprune]; exact hmem
    have h1 : A.countP (fun t => decide (n2 - t < period)) ≤
        A.countP (fun t => decide (m < t) && decide (n - t < period)) := by
      apply List.countP_mono_left
      intro t htA hdec
      simp only [decide_eq_true_eq] at hdec
      have htm : m < t := by linarith
      have htn : n - t < period := by linarith
      simp [htm, htn]
    have h2 : A.countP (fun t => decide (m < t) && decide (n - t < period)) =
        (pruneCalls period n A).countP (fun t => decide (m < t)) := by
      unfold pruneCalls
      rw [List.countP_filter]
    have h3 : (pruneCalls period n A).countP (fun t => decide (m < t)) <
        (pruneCalls period n A).length := by
      apply Nat.lt_of_le_of_ne (List.countP_le_length _)
      intro heq
      rw [List.countP_eq_length] at heq
      have := heq m hmemA
      simp at this
    omega
  · push_neg at hcase
    rw [hprune, hlenA] at hcase
    have h1 : A.countP (fun t => decide (n2 - t < period)) ≤
        A.countP (fun t => decide (n - t < period)) := by
      apply List.countP_mono_left
      intro t htA hdec
      simp only [decide_eq_true_eq] at hdec ⊢
      linarith
    omega

/-- One `_rate_limit_check` invocation preserves the rate-limiter
invariant, extending the accepted list by the fresh timestamp. -/
theorem rl_inv_step (quota : Nat) (period : ℚ) (A calls : List ℚ) (last n n2 : ℚ)
    (hq : 1 ≤ quota) (hw : 0 < period)
    (inv : RLInv quota period A calls last)
    (hn : last ≤ n) (hn2 : n + sleepTime quota period n calls ≤ n2) :
    RLInv quota period (A ++ [n2]) (rate_limit_record period n n2 calls) n2 := by
  have hcore := rl_core_step quota period A calls last n n2 hq hw inv hn hn2
  have hnn2 : n ≤ n2 := le_trans (le_add_of_nonneg_right
    (sleepTime_nonneg quota period n calls)) hn2
  constructor
  · intro t ht
    rcases List.mem_append.mp ht with h | h
    · exact le_trans (inv.le_last t h) (by linarith)
    · simp at h
      rw [h]
  · intro nn hnn
    unfold rate_limit_record pruneCalls
    rw [List.filter_append]
    have hfix : List.filter (fun t => decide (nn - t < period))
        (List.filter (fun t => decide (n - t < period)) calls) =
        List.filter (fun t => decide (nn - t < period)) A := by
      have hp := pruneCalls_pruneCalls period n nn (by linarith) calls
      unfold pruneCalls at hp
      rw [hp]
      have hq2 := inv.prune_eq nn (by linarith)
      unfold pruneCalls at hq2
      rw [hq2]
    rw [hfix, List.filter_append]
  · rw [List.countP_append]
    have h2 : List.countP (fun t => decide (n2 - t < period)) [n2] = 1 := by
      simp [hw]
    rw [h2]
    omega
  · intro x
    rw [List.countP_append]
    by_cases hx : (decide (x ≤ n2) && decide (n2 < x + period)) = true
    · simp only [Bool.and_eq_true, decide_eq_true_eq] at hx
      have hA : A.countP (fun t => decide (x ≤ t) && decide (t < x + period)) ≤
          A.countP (fun t => decide (n2 - t < period)) := by
        apply List.countP_mono_left
        intro t htA hdec
        simp only [Bool.and_eq_true, decide_eq_true_eq] at hdec
        simp only [decide_eq_true_eq]
        linarith
      have hone : List.countP (fun t => decide (x ≤ t) && decide (t < x + period)) [n2] ≤ 1 :=
        le_trans (List.countP_le_length _) (by simp)
      omega
    · have h0 : List.countP (fun t => decide (x ≤ t) && decide (t < x + period)) [n2] = 0 := by
        simp only [List.countP_cons, List.countP_nil]
        rw [if_neg]
        intro hcontra
        exact hx hcontra
      rw [h0]
      have := inv.window x
      omega

/-- Running the limiter from any invariant state keeps every window of
length `period` at or below the quota over all accepted timestamps. -/
theorem rl_run (quota : Nat) (period : ℚ) (hq : 1 ≤ quota) (hw : 0 < period) :
    ∀ (steps : List (ℚ × ℚ)) (A calls : List ℚ) (last : ℚ),
      validRun quota period steps calls last = true →
      RLInv quota period A calls last →
      ∀ x : ℚ, (A ++ steps.map Prod.snd).countP
        (fun t => decide (x ≤ t) && decide (t < x + period)) ≤ quota := by
  intro steps
  induction steps with
  | nil =>
    intro A calls last hv inv x
    simpa using inv.window x
  | cons st rest ih =>
    intro A calls last hv inv x
    obtain ⟨n, n2⟩ := st
    simp only [validRun, Bool.and_eq_true, decide_eq_true_eq] at hv
    obtain ⟨⟨h1, h2⟩, h3⟩ := hv
    have inv2 := rl_inv_step quota period A calls last n n2 hq hw inv h1 h2
    have hrec := ih (A ++ [n2]) (rate_limit_record period n n2 calls) n2 h3 inv2 x
    simpa [List.append_assoc] using hrec

/-- C1: for quota `rate_limit_calls ≥ 1` and window `rate_limit_period
> 0`, over any sequence of `_rate_limit_check` invocations whose two
clock readings per call are consistent with a real clock (monotone, and
the post-sleep reading at least `sleepTime` after entry — exactly what
`time.time()` and `time.sleep` guarantee), no window `[x, x + period)`
ever contains more than `quota` accepted-call timestamps. The operation
itself is embedded as the total state transformer `rate_limit_record`
(prune, optionally sleep, record): it has no failure mode. -/
theorem rate_limit_sliding_window (quota : Nat) (period : ℚ) (steps : List (ℚ × ℚ))
    (t0 x : ℚ) (hq : 1 ≤ quota) (hw : 0 < period)
    (hrun : validRun quota period steps [] t0 = true) :
    (acceptedCalls steps).countP
      (fun t => decide (x ≤ t) && decide (t < x + period)) ≤ quota := by
  have inv0 : RLInv quota period [] [] t0 := by
    constructor
    · intro t ht
      simp at ht
    · intro n hn
      rfl
    · simp
    · intro y
      simp
  have := rl_run quota period hq hw steps [] [] t0 hrun inv0 x
  simpa [acceptedCalls] using this

/-- Witness for C1: a quota-1, period-1 limiter with two invocations one
second apart satisfies the clock-validity side conditions, and the
window starting at `x = 0` holds at most one accepted call. -/
theorem rate_limit_sliding_window_witness :
    (1 : Nat) ≤ 1 ∧ (0 : ℚ) < 1 ∧
    validRun 1 1 [(0, 0), (1, 1)] [] 0 = true ∧
    (acceptedCalls [((0 : ℚ), (0 : ℚ)), (1, 1)]).countP
      (fun t => decide ((0 : ℚ) ≤ t) && decide (t < 0 + 1)) ≤ 1 := by
  have hv : validRun 1 1 [((0 : ℚ), (0 : ℚ)), (1, 1)] [] 0 = true := by
    simp [validRun, sleepTime, pruneCalls, rate_limit_record, listMin]
  exact ⟨le_refl 1, by norm_num, hv,
    rate_limit_sliding_window 1 1 [(0, 0), (1, 1)] 0 0 (le_refl 1) (by norm_num) hv⟩

end DataConnectors
